import Mathlib

/-!
# tr-gh: Trello board to GitHub commit

A shallow embedding of `src/main.go` (`init` and `main`) and the properties of
its commit-construction pipeline.

Conventions of the embedding
* Go pointers are `Option`; dereferencing `none` ends the run with `Exit.nilDeref`.
* Go `error` values are the `String` that `%s` prints.
* Everything outside the repository (the two remote services, the file system,
  `encoding/json`, `fmt`'s `%q`, `slugify.Slugify`) is a parameter: the remote
  answers are the fields of `World`, the library functions the fields of `Env`.
* A run is the list of remote calls and messages it produced, in order, and
  the way it ended.
-/

set_option autoImplicit false

namespace TrGh

/-! ## Data model -/

/-- The fields of `trello.List` that the program reads. -/
structure TrelloList where
  Id : String
  Name : String
deriving DecidableEq, Repr

/-- The fields of `trello.Card` requested by `card_fields` in `main`. -/
structure Card where
  Id : String
  Name : String
  Desc : String
  IdList : String
  Due : Option String
  Labels : List String
deriving DecidableEq, Repr

/-- The board snapshot returned by `GetBoard`. -/
structure Board where
  Lists : List TrelloList
  Cards : List Card
deriving DecidableEq, Repr

/-- Record `github.TreeEntry`; every field is a pointer in Go. -/
structure TreeEntry where
  SHA : Option String
  Path : Option String
  Mode : Option String
  Typ : Option String
  Content : Option String
deriving DecidableEq, Repr

/-- Record `github.Tree`. -/
structure Tree where
  SHA : Option String
  Entries : List TreeEntry
deriving DecidableEq, Repr

/-- Record `github.Commit`; `Parents` is a slice of commits. -/
inductive Commit where
  | mk (SHA : Option String) (Message : Option String) (Tree : Option Tree)
      (Parents : List Commit) (URL : Option String)
deriving Repr

namespace Commit

def SHA : Commit → Option String
  | mk s _ _ _ _ => s

def Message : Commit → Option String
  | mk _ m _ _ _ => m

def Tree : Commit → Option TrGh.Tree
  | mk _ _ t _ _ => t

def Parents : Commit → List Commit
  | mk _ _ _ p _ => p

def URL : Commit → Option String
  | mk _ _ _ _ u => u

end Commit

/-- Record `github.GitObject`. -/
structure GitObject where
  Typ : Option String
  SHA : Option String
  URL : Option String
deriving DecidableEq, Repr

/-- Record `github.Reference`. -/
structure Reference where
  Ref : Option String
  URL : Option String
  Object : Option GitObject
deriving DecidableEq, Repr

/-- Client `*github.Client` built from the token. -/
structure GithubClient where
  AccessToken : String
deriving DecidableEq, Repr

/-- Client `*trello.Client` built from key and token. -/
structure TrelloClient where
  ApiKey : String
  UserToken : String
deriving DecidableEq, Repr

/-- Type `Config` of main.go, lines 17-28. -/
structure Config where
  TrelloApiKey : String
  TrelloUserToken : String
  TrelloBoardId : String
  TrelloClient : Option TrelloClient
  GithubToken : String
  GithubUser : String
  GithubRepo : String
  GithubBranch : String
  GithubClient : Option GithubClient
  ItemPath : String
deriving DecidableEq, Repr

/-- The package-level variables of main.go (lines 30-38) that the code uses. -/
structure Globals where
  config : Config
  latestCommit : Option Commit
  treeEntry : TreeEntry
  tree : Tree

/-- The zero values the package-level variables hold when `init` starts. -/
def Globals.zero : Globals where
  config := ⟨"", "", "", none, "", "", "", "", none, ""⟩
  latestCommit := none
  treeEntry := ⟨none, none, none, none, none⟩
  tree := ⟨none, []⟩

/-! ## Go values: slices and maps -/

/-- A Go slice value: the nil slice, or a backed sequence. -/
inductive GoSlice (α : Type) where
  | nil
  | elems (xs : List α)
deriving DecidableEq, Repr

namespace GoSlice

variable {α : Type}

/-- Go `append(s, x)`: the result is never nil. -/
def append : GoSlice α → α → GoSlice α
  | nil, x => elems [x]
  | elems xs, x => elems (xs ++ [x])

/-- The elements of a slice, in order. -/
def toList : GoSlice α → List α
  | nil => []
  | elems xs => xs

end GoSlice

/-- The Go slice that holds a sequence built by `append` from the nil slice:
nil when nothing was appended. -/
def sliceOf {α : Type} : List α → GoSlice α
  | [] => GoSlice.nil
  | x :: xs => GoSlice.elems (x :: xs)

/-- A Go `map[string]string` as a list of bindings with pairwise distinct keys. -/
abbrev GoMap := List (String × String)

namespace GoMap

/-- Go `make(map[string]string)`. -/
def make : GoMap := []

/-- Go `m[k] = v`. -/
def set : GoMap → String → String → GoMap
  | [], k, v => [(k, v)]
  | (k', v') :: m, k, v => if k' = k then (k, v) :: m else (k', v') :: set m k v

/-- Go `v, ok := m[k]`, with `none` for `ok = false`. -/
def get : GoMap → String → Option String
  | [], _ => none
  | (k', v') :: m, k => if k' = k then some v' else get m k

/-- Insertion of a binding into a list of bindings sorted by key. -/
def insertByKey (kv : String × String) : List (String × String) → List (String × String)
  | [] => [kv]
  | kv' :: rest => if kv.1 < kv'.1 then kv :: kv' :: rest else kv' :: insertByKey kv rest

/-- The bindings in increasing key order, the order `encoding/json` writes them in. -/
def sorted (m : GoMap) : List (String × String) :=
  m.foldr insertByKey []

end GoMap

/-- Go `strings.HasPrefix`. Go compares bytes; on UTF-8 text, and with the ASCII
marker the program uses, that is the comparison of the leading characters. -/
def HasPrefix (s pre : String) : Bool :=
  pre.data.isPrefixOf s.data

/-! ## The environment: library functions and remote services -/

/-- The pure library functions the program calls. -/
structure Env where
  /-- Function `json.Unmarshal` on the configuration file. -/
  Unmarshal : String → Except String Config
  /-- A string as `encoding/json` writes it, quotes included. -/
  jsonString : String → String
  /-- One `trello.Card` as `json.MarshalIndent` writes it inside an array. -/
  marshalCard : Card → Except String String
  /-- The verb `%q` of `fmt` on a string. -/
  Quote : String → String
  /-- Function `slugify.Slugify`. -/
  Slugify : String → String

/-- The query parameters of `GetBoard`. -/
abbrev Params := List (String × String)

/-- The outcome of every external call the program can make. -/
structure World where
  ReadFile : String → Except String String
  GetRef : String → String → String → Except String Reference
  GetCommit : String → String → String → Except String Commit
  GetBoard : TrelloClient → String → Params → Except String Board
  /-- The method `GetBoard` called through a nil client; `none` when it panics. -/
  GetBoardNilClient : String → Params → Option (Except String Board)
  CreateTree : String → String → String → List TreeEntry → Except String Tree
  CreateCommit : String → String → Commit → Except String Commit
  UpdateRef : String → String → Reference → Bool → Except String Reference

/-- A remote call, with its arguments. -/
inductive Call where
  | GetRef (owner repo ref : String)
  | GetCommit (owner repo sha : String)
  | GetBoard (id : String) (params : Params)
  | CreateTree (owner repo baseTree : String) (entries : List TreeEntry)
  | CreateCommit (owner repo : String) (commit : Commit)
  | UpdateRef (owner repo : String) (ref : Reference) (force : Bool)

/-- What a run does that can be observed. -/
inductive Event where
  | call (c : Call)
  | printf (s : String)
  | logPrintf (s : String)
  | logFatal (s : String)

/-- How a function of the program ends. -/
inductive Exit where
  | returned
  | fatal
  | nilDeref
deriving DecidableEq, Repr

/-- The observable events of a run and the way it ended. -/
structure Run where
  trace : List Event
  exit : Exit

/-! ## encoding/json -/

/-- Lines joined the way `json.MarshalIndent(v, "", "\t")` lays out the members
of a top-level object or array. -/
def indentMembers : List String → String
  | [] => ""
  | [x] => "\n\t" ++ x ++ "\n"
  | x :: y :: rest => "\n\t" ++ x ++ "," ++ indentMembers (y :: rest)

/-- Call `json.MarshalIndent(listMap, "", "\t")` on a non-nil `map[string]string`:
keys sorted, an empty map is written without line breaks. Strings always encode. -/
def MarshalIndentMap (env : Env) (m : GoMap) : Except String String :=
  .ok ("\x7b" ++
    indentMembers ((GoMap.sorted m).map
      (fun kv => env.jsonString kv.1 ++ ": " ++ env.jsonString kv.2)) ++ "\x7d")

/-- All cards encoded, or the first error. -/
def marshalCards (env : Env) : List Card → Except String (List String)
  | [] => .ok []
  | c :: cs =>
    match env.marshalCard c with
    | .error e => .error e
    | .ok s =>
      match marshalCards env cs with
      | .error e => .error e
      | .ok ss => .ok (s :: ss)

/-- Call `json.MarshalIndent(filteredCards, "", "\t")` on a `[]trello.Card`: a nil
slice is written `null`, an empty one `[]`. -/
def MarshalIndentCards (env : Env) : GoSlice Card → Except String String
  | .nil => .ok "null"
  | .elems cs =>
    match marshalCards env cs with
    | .error e => .error e
    | .ok ss => .ok ("[" ++ indentMembers ss ++ "]")

/-- Go `string(b)` of the byte slice returned with an error: nil on error. -/
def bytesToString : Except String String → String
  | .ok s => s
  | .error _ => ""

/-! ## init (main.go, lines 41-71) -/

/-- Function `init`: reads the configuration, builds the clients and reads the
branch tip. Returns the run of `init` and the package-level variables after it. -/
def init (env : Env) (w : World) (g : Globals) : Run × Globals :=
  match w.ReadFile "./config/config.json" with
  | .error _ => (⟨[.logFatal "Cannot read configuration file."], .fatal⟩, g)
  | .ok data =>
  match env.Unmarshal data with
  | .error _ => (⟨[.logFatal "Invalid configuration file."], .fatal⟩, g)
  | .ok parsed =>
  let config : Config := { parsed with
    TrelloClient := g.config.TrelloClient
    GithubClient := some ⟨parsed.GithubToken⟩ }
  let g : Globals := { g with config := config }
  let refName := "heads/" ++ config.GithubBranch
  let cGetRef := Event.call (.GetRef config.GithubUser config.GithubRepo refName)
  match w.GetRef config.GithubUser config.GithubRepo refName with
  | .error err => (⟨[cGetRef, .printf ("error getting ref: " ++ err)], .returned⟩, g)
  | .ok oldRef =>
  match oldRef.Object with
  | none => (⟨[cGetRef], .nilDeref⟩, g)
  | some object =>
  match object.SHA with
  | none => (⟨[cGetRef], .nilDeref⟩, g)
  | some refSHA =>
  let cGetCommit := Event.call (.GetCommit config.GithubUser config.GithubRepo refSHA)
  let trello : Option TrelloClient := some ⟨config.TrelloApiKey, config.TrelloUserToken⟩
  match w.GetCommit config.GithubUser config.GithubRepo refSHA with
  | .error err =>
    (⟨[cGetRef, cGetCommit, .printf ("error getting repoCommit: " ++ err)], .returned⟩,
      { g with latestCommit := none, config := { config with TrelloClient := trello } })
  | .ok commit =>
    (⟨[cGetRef, cGetCommit], .returned⟩,
      { g with latestCommit := some commit, config := { config with TrelloClient := trello } })

/-! ## main (main.go, lines 73-174) -/

/-- The query parameters built in lines 74-82. -/
def boardParams (config : Config) : Params :=
  [("key", config.TrelloApiKey), ("token", config.TrelloUserToken), ("lists", "open"),
   ("cards", "open"), ("card_fields", "name,desc,pos,idList,labels,due"),
   ("fields", "name,pos,desc"), ("card_attachments", "true"),
   ("card_attachment_fields", "name,url")]

/-- The body of the loop over `board.Lists`, lines 97-101. -/
def listStep (listMap : GoMap) (list : TrelloList) : GoMap :=
  if !HasPrefix list.Name "PRIVATE" then listMap.set list.Id list.Name else listMap

/-- The variables the loop over `board.Cards` updates. -/
structure CardLoop where
  filteredCards : GoSlice Card
  treeEntry : TreeEntry
  tree : Tree

/-- The body of the loop over `board.Cards`, lines 115-130. -/
def cardStep (env : Env) (config : Config) (listMap : GoMap) (treeMode treeType : String)
    (st : CardLoop) (card : Card) : CardLoop :=
  match listMap.get card.IdList with
  | none => st
  | some _ =>
    let filteredCards := st.filteredCards.append card
    let cardText := "---\nname: " ++ env.Quote card.Name ++ "\nlayout: card\n---"
    let cardSlug := env.Slugify card.Name
    let cardPath := "_" ++ config.ItemPath ++ "/" ++ cardSlug ++ "/index.html"
    let treeEntry : TreeEntry := { st.treeEntry with
      Path := some cardPath, Mode := some treeMode, Typ := some treeType,
      Content := some cardText }
    let tree : Tree := { st.tree with Entries := st.tree.Entries ++ [treeEntry] }
    ⟨filteredCards, treeEntry, tree⟩

/-- The inclusion map `listMap` of lines 96-101. -/
def listMap (board : Board) : GoMap :=
  board.Lists.foldl listStep GoMap.make

/-- Lines 90-138 of `main`: the value of `tree.Entries` handed to `CreateTree`,
or the error of line 103. -/
def buildEntries (env : Env) (g : Globals) (board : Board) : Except String (List TreeEntry) :=
  let treeMode := "100644"
  let treeType := "blob"
  let listMap := listMap board
  match MarshalIndentMap env listMap with
  | .error err => .error err
  | .ok lists =>
  let listsPath := "_data/lists.json"
  let treeEntry : TreeEntry := { g.treeEntry with
    Path := some listsPath, Mode := some treeMode, Typ := some treeType,
    Content := some lists }
  let tree : Tree := { g.tree with Entries := g.tree.Entries ++ [treeEntry] }
  let loop := board.Cards.foldl (cardStep env g.config listMap treeMode treeType)
    ⟨GoSlice.nil, treeEntry, tree⟩
  let cardsJson := MarshalIndentCards env loop.filteredCards
  let cardsPath := "_data/all.json"
  let cardsContent := bytesToString cardsJson
  let treeEntry : TreeEntry := { loop.treeEntry with
    Path := some cardsPath, Mode := some treeMode, Typ := some treeType,
    Content := some cardsContent }
  let tree : Tree := { loop.tree with Entries := loop.tree.Entries ++ [treeEntry] }
  .ok tree.Entries

/-- Line 84: the call of `GetBoard` through `config.TrelloClient`; `none` when
the call panics. -/
def fetchBoard (w : World) (config : Config) : Option (Except String Board) :=
  match config.TrelloClient with
  | none => w.GetBoardNilClient config.TrelloBoardId (boardParams config)
  | some client => some (w.GetBoard client config.TrelloBoardId (boardParams config))

/-- Function `main`: fetches the board, builds the tree entries and publishes
them as one commit on the branch. -/
def main (env : Env) (w : World) (g : Globals) : Run :=
  let config := g.config
  let cGetBoard := Event.call (.GetBoard config.TrelloBoardId (boardParams config))
  match fetchBoard w config with
  | none => ⟨[], .nilDeref⟩
  | some (.error err) =>
    ⟨[cGetBoard, .logPrintf ("Unable to retrieve Trello board: " ++ err)], .returned⟩
  | some (.ok board) =>
  match buildEntries env g board with
  | .error err => ⟨[cGetBoard, .printf ("error marshaling listmap: " ++ err)], .returned⟩
  | .ok entries =>
  match config.GithubClient with
  | none => ⟨[cGetBoard], .nilDeref⟩
  | some _ =>
  match g.latestCommit with
  | none => ⟨[cGetBoard], .nilDeref⟩
  | some latestCommit =>
  match latestCommit.Tree with
  | none => ⟨[cGetBoard], .nilDeref⟩
  | some latestTree =>
  match latestTree.SHA with
  | none => ⟨[cGetBoard], .nilDeref⟩
  | some baseTree =>
  let cCreateTree :=
    Event.call (.CreateTree config.GithubUser config.GithubRepo baseTree entries)
  match w.CreateTree config.GithubUser config.GithubRepo baseTree entries with
  | .error err =>
    ⟨[cGetBoard, cCreateTree, .printf ("error creating tree 200: " ++ err)], .returned⟩
  | .ok newTree =>
  let commit : Commit :=
    .mk none (some "updating cards") (some newTree) ([] ++ [latestCommit]) none
  let cCreateCommit := Event.call (.CreateCommit config.GithubUser config.GithubRepo commit)
  match w.CreateCommit config.GithubUser config.GithubRepo commit with
  | .error err =>
    ⟨[cGetBoard, cCreateTree, cCreateCommit, .printf ("error creating commit: " ++ err)],
      .returned⟩
  | .ok newCommit =>
  let object : GitObject := ⟨some "commit", newCommit.SHA, newCommit.URL⟩
  let refRef := "refs/heads/" ++ config.GithubBranch
  let refURL := "https://api.github.com/repos/" ++ config.GithubUser ++ "/" ++
    config.GithubRepo ++ "/git/" ++ refRef
  let ref : Reference := ⟨some refRef, some refURL, some object⟩
  let cUpdateRef := Event.call (.UpdateRef config.GithubUser config.GithubRepo ref false)
  match w.UpdateRef config.GithubUser config.GithubRepo ref false with
  | .error err =>
    ⟨[cGetBoard, cCreateTree, cCreateCommit, cUpdateRef,
      .printf ("error updating ref: " ++ err)], .returned⟩
  | .ok _ => ⟨[cGetBoard, cCreateTree, cCreateCommit, cUpdateRef], .returned⟩

/-- The whole program: `init`, then `main` unless `init` ended the process. -/
def program (env : Env) (w : World) : Run :=
  let started := init env w Globals.zero
  match started.1.exit with
  | .returned =>
    let r := main env w started.2
    ⟨started.1.trace ++ r.trace, r.exit⟩
  | e => ⟨started.1.trace, e⟩

/-! ## Reference descriptions

Closed forms written from the specification, to compare the code with. -/

/-- Specification side: a card is included when its list id is a key of the inclusion map. -/
def includedCard (m : GoMap) (card : Card) : Bool :=
  (m.get card.IdList).isSome

/-- Specification side: the filtered-card sequence, the cards of the board on an
included list, in board order. -/
def specFilteredCards (board : Board) : List Card :=
  board.Cards.filter (includedCard (listMap board))

/-- Specification side: the per-card entry, a front-matter stub at the slug path.
The field `SHA` is the one of the package-level `treeEntry`, which nothing sets. -/
def specCardEntry (env : Env) (itemPath : String) (sha : Option String) (card : Card) :
    TreeEntry :=
  { SHA := sha
    Path := some ("_" ++ itemPath ++ "/" ++ env.Slugify card.Name ++ "/index.html")
    Mode := some "100644"
    Typ := some "blob"
    Content := some ("---\nname: " ++ env.Quote card.Name ++ "\nlayout: card\n---") }

/-- Specification side: a list is private when its name starts with the marker. -/
def isPrivate (list : TrelloList) : Bool :=
  HasPrefix list.Name "PRIVATE"

/-- Specification side: the card sits on a list of the board that is not private. -/
def onPublicList (board : Board) (card : Card) : Bool :=
  board.Lists.any (fun l => l.Id == card.IdList && !isPrivate l)

/-! ## Mutating calls -/

/-- The three remote calls that write to the repository. -/
inductive Mutation where
  | createTree
  | createCommit
  | updateRef
deriving DecidableEq, Repr

/-- The mutation an event is, if it is one. -/
def Event.mutation : Event → Option Mutation
  | .call (.CreateTree _ _ _ _) => some .createTree
  | .call (.CreateCommit _ _ _) => some .createCommit
  | .call (.UpdateRef _ _ _ _) => some .updateRef
  | _ => none

/-- The mutating calls of a run, in order. -/
def Run.mutations (r : Run) : List Mutation :=
  r.trace.filterMap Event.mutation

/-! ## The branch on the remote

The repository host is not part of the program. The non-forced update is
stated against any host that obeys the rule below; `fastForwardOnly` is git's
rule, one such host. -/

/-- The repository as update-reference sees it: the commit the branch points
at and the parents of every commit. -/
structure Repo where
  tip : String
  parents : String → List String

/-- Commit `c` descends from `t`: `t` is `c` itself or an ancestor of `c`. -/
inductive Descends (parents : String → List String) : String → String → Prop where
  | refl (c : String) : Descends parents c c
  | step {c p t : String} : p ∈ parents c → Descends parents p t → Descends parents c t

/-- A host's update-reference: the repository, the new SHA and the force flag
give whether the update was accepted and the repository afterwards. -/
abbrev RefUpdate := Repo → String → Bool → Bool × Repo

/-- The host rejects a non-forced update whose new commit does not descend from
the current tip, and leaves the branch as it is. -/
def RejectsNonDescending (upd : RefUpdate) : Prop :=
  ∀ (repo : Repo) (sha : String),
    ¬ Descends repo.parents sha repo.tip → upd repo sha false = (false, repo)

/-- Search for `t` among `c` and its ancestors up to `depth` generations. -/
def reaches (parents : String → List String) : Nat → String → String → Bool
  | 0, c, t => c == t
  | depth + 1, c, t => c == t || (parents c).any (fun p => reaches parents depth p t)

/-- The rule of git: a forced update is accepted, a non-forced one only when it
is a fast-forward (found within `depth` generations). -/
def fastForwardOnly (depth : Nat) : RefUpdate := fun repo sha force =>
  if force || reaches repo.parents depth sha repo.tip then
    (true, { repo with tip := sha })
  else
    (false, repo)

/-! ## Sample runs

A concrete library, configuration and remote, for evaluating the program. -/

/-- Modelled from the spec: `slugify.Slugify` is a library outside the repository.
The specification describes it as lowercase, with runs of non-alphanumeric
characters collapsed to one separator and no leading or trailing separator. -/
def slugChars : Bool → List Char → List Char
  | _, [] => []
  | afterSeparator, c :: cs =>
    if c.toLower.isAlphanum then c.toLower :: slugChars false cs
    else if afterSeparator then slugChars true cs
    else
      match slugChars true cs with
      | [] => []
      | rest => '-' :: rest

/-- Modelled from the spec: `slugify.Slugify`, see `slugChars`. -/
def specSlugify (s : String) : String :=
  ⟨slugChars true s.data⟩

/-- Characters of a quoted string: the quote and the backslash are escaped. -/
def quoteChars : List Char → List Char
  | [] => []
  | c :: cs => if c = '"' ∨ c = '\\' then '\\' :: c :: quoteChars cs else c :: quoteChars cs

/-- A double-quoted string with the quote and the backslash escaped; `%q` and
`encoding/json` both write text of letters, digits, spaces and hyphens this way. -/
def sampleQuote (s : String) : String :=
  ⟨'"' :: quoteChars s.data ++ ['"']⟩

/-- The configuration of the sample runs: branch `master` of `owner/site`,
ItemPath `items`. -/
def sampleConfig : Config :=
  ⟨"key", "token", "board", none, "ghtoken", "owner", "site", "master", none, "items"⟩

/-- A sample library. The configuration file always parses to `sampleConfig`;
strings are quoted by `sampleQuote`; a card is encoded on one line with three of
its fields, an abbreviation of what `encoding/json` writes. -/
def sampleEnv : Env where
  Unmarshal := fun _ => .ok sampleConfig
  jsonString := sampleQuote
  marshalCard := fun card =>
    .ok ("\x7b\"id\": " ++ sampleQuote card.Id ++ ", \"name\": " ++ sampleQuote card.Name
      ++ ", \"idList\": " ++ sampleQuote card.IdList ++ "\x7d")
  Quote := sampleQuote
  Slugify := specSlugify

/-- The board of the specification's example. -/
def sampleBoard : Board :=
  ⟨[⟨"id1", "PRIVATE-notes"⟩, ⟨"id2", "Tasks"⟩], [⟨"c1", "Fix bug", "", "id2", none, []⟩]⟩

/-- The branch tip of the sample remote: commit `t` with tree `tt`. -/
def sampleTip : Commit :=
  .mk (some "t") (some "previous") (some ⟨some "tt", []⟩) [] none

/-- The commit the sample remote creates. -/
def sampleNewCommit : Commit :=
  .mk (some "c") (some "updating cards") (some ⟨some "nt", []⟩) [sampleTip] none

/-- A remote on which every call succeeds. -/
def sampleWorld : World where
  ReadFile := fun _ => .ok "config"
  GetRef := fun _ _ _ => .ok ⟨some "refs/heads/master", none, some ⟨some "commit", some "t", none⟩⟩
  GetCommit := fun _ _ _ => .ok sampleTip
  GetBoard := fun _ _ _ => .ok sampleBoard
  GetBoardNilClient := fun _ _ => none
  CreateTree := fun _ _ _ _ => .ok ⟨some "nt", []⟩
  CreateCommit := fun _ _ _ => .ok sampleNewCommit
  UpdateRef := fun _ _ ref _ => .ok ref

/-- The sample remote, except that reading the tip commit fails. -/
def tipFailsWorld : World :=
  { sampleWorld with GetCommit := fun _ _ _ => .error "502 Bad Gateway" }

/-- The sample remote, serving an empty board. -/
def emptyBoardWorld : World :=
  { sampleWorld with GetBoard := fun _ _ _ => .ok ⟨[], []⟩ }

/-- The sample remote, except that fetching the board fails. -/
def boardFailsWorld : World :=
  { sampleWorld with GetBoard := fun _ _ _ => .error "401 unauthorized" }

/-- The package-level variables after `init` on the sample remote. -/
def sampleGlobals : Globals :=
  (init sampleEnv sampleWorld Globals.zero).2

/-- The reference the program sends to update-reference on the sample remote. -/
def sampleRef : Reference :=
  ⟨some "refs/heads/master",
    some "https://api.github.com/repos/owner/site/git/refs/heads/master",
    some ⟨some "commit", some "c", none⟩⟩

/-- The commit graph of the sample remote: `a`, then the tip `t` on `a`, then
the new commit `c` on `t`, and a commit `x` that someone else made on `t`. -/
def sampleParents : String → List String := fun sha =>
  if sha = "c" then ["t"]
  else if sha = "x" then ["t"]
  else if sha = "t" then ["a"]
  else []

/-- The branch was advanced to `x` after the program read the tip `t`. -/
def advancedRepo : Repo := ⟨"x", sampleParents⟩

/-- The branch was moved back to `a`, the parent of `t`, after the program read
the tip `t`. -/
def rewoundRepo : Repo := ⟨"a", sampleParents⟩

/-- The sample library, except that encoding a card fails. -/
def cardFailsEnv : Env :=
  { sampleEnv with marshalCard := fun _ => .error "json: unsupported value" }

/-- A board with the public data of `sampleBoard` and other private data: another
private list, a card on it, and a card on no list at all. -/
def otherPrivateBoard : Board :=
  ⟨[⟨"id2", "Tasks"⟩, ⟨"id7", "PRIVATE-plans"⟩],
    [⟨"p1", "Secret plan", "hidden", "id7", none, []⟩,
     ⟨"c1", "Fix bug", "", "id2", none, []⟩,
     ⟨"u1", "Orphan", "", "gone", none, []⟩]⟩

/-! ## Lemmas on maps and slices -/

theorem GoMap.get_set (m : GoMap) (k v k' : String) :
    GoMap.get (GoMap.set m k v) k' = if k = k' then some v else GoMap.get m k' := by
  induction m with
  | nil => simp [GoMap.set, GoMap.get]
  | cons kv m ih =>
    obtain ⟨a, b⟩ := kv
    by_cases hak : a = k
    · subst hak
      by_cases h : a = k' <;> simp [GoMap.set, GoMap.get, h]
    · by_cases h : a = k'
      · subst h
        have hne : ¬ k = a := fun e => hak e.symm
        simp [GoMap.set, GoMap.get, hak, hne]
      · simp [GoMap.set, GoMap.get, hak, h, ih]

theorem GoSlice.toList_append {α : Type} (s : GoSlice α) (x : α) :
    (s.append x).toList = s.toList ++ [x] := by
  cases s <;> rfl

theorem GoSlice.toList_foldl_append {α : Type} (xs : List α) (s : GoSlice α) :
    (xs.foldl GoSlice.append s).toList = s.toList ++ xs := by
  induction xs generalizing s with
  | nil => simp
  | cons x xs ih => simp [ih, GoSlice.toList_append]

/-- The slice built by appending to the nil slice is nil exactly when nothing was appended. -/
theorem GoSlice.foldl_append_nil {α : Type} (xs : List α) :
    xs.foldl GoSlice.append GoSlice.nil = sliceOf xs := by
  have key : ∀ (ys zs : List α),
      ys.foldl GoSlice.append (GoSlice.elems zs) = GoSlice.elems (zs ++ ys) := by
    intro ys
    induction ys with
    | nil => intro zs; simp
    | cons y ys ih => intro zs; simp [GoSlice.append, ih]
  cases xs with
  | nil => rfl
  | cons x xs => simp [GoSlice.append, key, sliceOf]

/-! ## Lemmas on the loop over the lists -/

theorem listStep_get (m : GoMap) (l : TrelloList) (k : String) :
    GoMap.get (listStep m l) k =
      if isPrivate l = false ∧ l.Id = k then some l.Name else GoMap.get m k := by
  unfold listStep isPrivate
  cases h : HasPrefix l.Name "PRIVATE" <;> simp [GoMap.get_set]

theorem foldl_listStep_get_of_absent (lists : List TrelloList) (m : GoMap) (k : String)
    (h : ∀ l ∈ lists, l.Id ≠ k) :
    GoMap.get (lists.foldl listStep m) k = GoMap.get m k := by
  induction lists generalizing m with
  | nil => rfl
  | cons l ls ih =>
    have hl : l.Id ≠ k := h l (List.mem_cons_self _ _)
    simp only [List.foldl_cons]
    rw [ih _ (fun x hx => h x (List.mem_cons_of_mem _ hx)), listStep_get]
    simp [hl]

theorem foldl_listStep_get_of_mem (lists : List TrelloList) (m : GoMap) (l : TrelloList)
    (hnd : (lists.map TrelloList.Id).Nodup) (hl : l ∈ lists) :
    GoMap.get (lists.foldl listStep m) l.Id =
      if isPrivate l then GoMap.get m l.Id else some l.Name := by
  induction lists generalizing m with
  | nil => simp at hl
  | cons x xs ih =>
    simp only [List.map_cons, List.nodup_cons, List.mem_map, not_exists, not_and] at hnd
    simp only [List.foldl_cons]
    rcases List.mem_cons.mp hl with rfl | hmem
    · rw [foldl_listStep_get_of_absent xs _ _ (fun y hy => hnd.1 y hy), listStep_get]
      cases isPrivate l <;> simp
    · rw [ih _ hnd.2 hmem, listStep_get]
      have hne : x.Id ≠ l.Id := fun e => hnd.1 l hmem e.symm
      simp [hne]

theorem foldl_listStep_get_some (lists : List TrelloList) (m : GoMap) (k v : String)
    (h : GoMap.get (lists.foldl listStep m) k = some v) :
    GoMap.get m k = some v ∨ ∃ l ∈ lists, l.Id = k ∧ l.Name = v ∧ isPrivate l = false := by
  induction lists generalizing m with
  | nil => exact Or.inl h
  | cons x xs ih =>
    simp only [List.foldl_cons] at h
    rcases ih _ h with h1 | ⟨l, hl, h2⟩
    · rw [listStep_get] at h1
      split at h1
      · rename_i hc
        right
        exact ⟨x, List.mem_cons_self _ _, hc.2, by simpa using h1, hc.1⟩
      · exact Or.inl h1
    · exact Or.inr ⟨l, List.mem_cons_of_mem _ hl, h2⟩

theorem foldl_listStep_isSome (lists : List TrelloList) (m : GoMap) (k : String) :
    (GoMap.get (lists.foldl listStep m) k).isSome = true ↔
      (GoMap.get m k).isSome = true ∨ ∃ l ∈ lists, l.Id = k ∧ isPrivate l = false := by
  induction lists generalizing m with
  | nil => simp
  | cons x xs ih =>
    simp only [List.foldl_cons, ih, listStep_get, List.mem_cons, exists_eq_or_imp]
    by_cases hc : isPrivate x = false ∧ x.Id = k
    · simp [hc.1, hc.2]
    · rw [if_neg hc]
      constructor
      · rintro (h | h)
        · exact Or.inl h
        · exact Or.inr (Or.inr h)
      · rintro (h | h | h)
        · exact Or.inl h
        · exact absurd ⟨h.2, h.1⟩ hc
        · exact Or.inr h

theorem foldl_listStep_filter (lists : List TrelloList) (m : GoMap) :
    lists.foldl listStep m = (lists.filter (fun l => !isPrivate l)).foldl listStep m := by
  induction lists generalizing m with
  | nil => rfl
  | cons x xs ih =>
    cases hx : isPrivate x
    · simp [List.filter_cons, hx, ih]
    · have : listStep m x = m := by
        unfold listStep; unfold isPrivate at hx; simp [hx]
      simp [List.filter_cons, hx, this, ih]

/-! ## Lemmas on the loop over the cards -/

theorem cardStep_included (env : Env) (config : Config) (m : GoMap) (st : CardLoop)
    (card : Card) (h : includedCard m card = true) :
    cardStep env config m "100644" "blob" st card =
      ⟨st.filteredCards.append card,
       specCardEntry env config.ItemPath st.treeEntry.SHA card,
       ⟨st.tree.SHA, st.tree.Entries ++
         [specCardEntry env config.ItemPath st.treeEntry.SHA card]⟩⟩ := by
  unfold includedCard at h
  unfold cardStep specCardEntry
  cases hg : GoMap.get m card.IdList with
  | none => simp [hg] at h
  | some v => rfl

theorem cardStep_excluded (env : Env) (config : Config) (m : GoMap) (st : CardLoop)
    (card : Card) (h : includedCard m card = false) :
    cardStep env config m "100644" "blob" st card = st := by
  unfold includedCard at h
  unfold cardStep
  cases hg : GoMap.get m card.IdList with
  | none => rfl
  | some v => simp [hg] at h

theorem foldl_cardStep (env : Env) (config : Config) (m : GoMap) (cards : List Card)
    (st : CardLoop) :
    (cards.foldl (cardStep env config m "100644" "blob") st).filteredCards =
        (cards.filter (includedCard m)).foldl GoSlice.append st.filteredCards ∧
      (cards.foldl (cardStep env config m "100644" "blob") st).treeEntry.SHA =
        st.treeEntry.SHA ∧
      (cards.foldl (cardStep env config m "100644" "blob") st).tree.Entries =
        st.tree.Entries ++ (cards.filter (includedCard m)).map
          (specCardEntry env config.ItemPath st.treeEntry.SHA) := by
  induction cards generalizing st with
  | nil => simp
  | cons c cs ih =>
    simp only [List.foldl_cons]
    cases hc : includedCard m c
    · rw [cardStep_excluded env config m st c hc]
      simpa [List.filter_cons, hc] using ih st
    · rw [cardStep_included env config m st c hc]
      have h := ih ⟨st.filteredCards.append c,
        specCardEntry env config.ItemPath st.treeEntry.SHA c,
        ⟨st.tree.SHA, st.tree.Entries ++
          [specCardEntry env config.ItemPath st.treeEntry.SHA c]⟩⟩
      refine ⟨?_, ?_, ?_⟩
      · rw [h.1]; simp [List.filter_cons, hc]
      · rw [h.2.1]; rfl
      · rw [h.2.2]; simp [List.filter_cons, hc, specCardEntry]

/-- Closed form of the entries built by lines 90-138. -/
theorem buildEntries_eq (env : Env) (g : Globals) (board : Board) :
    buildEntries env g board = .ok (g.tree.Entries ++
      [⟨g.treeEntry.SHA, some "_data/lists.json", some "100644", some "blob",
        some (bytesToString (MarshalIndentMap env (listMap board)))⟩] ++
      (specFilteredCards board).map (specCardEntry env g.config.ItemPath g.treeEntry.SHA) ++
      [⟨g.treeEntry.SHA, some "_data/all.json", some "100644", some "blob",
        some (bytesToString (MarshalIndentCards env (sliceOf (specFilteredCards board))))⟩]) := by
  obtain ⟨h1, h2, h3⟩ := foldl_cardStep env g.config (listMap board) board.Cards
    ⟨GoSlice.nil,
      ⟨g.treeEntry.SHA, some "_data/lists.json", some "100644", some "blob",
        some (bytesToString (MarshalIndentMap env (listMap board)))⟩,
      ⟨g.tree.SHA, g.tree.Entries ++
        [⟨g.treeEntry.SHA, some "_data/lists.json", some "100644", some "blob",
          some (bytesToString (MarshalIndentMap env (listMap board)))⟩]⟩⟩
  have hs : (specFilteredCards board).foldl GoSlice.append GoSlice.nil =
      sliceOf (specFilteredCards board) := GoSlice.foldl_append_nil _
  simp only [MarshalIndentMap, bytesToString] at h1 h2 h3 ⊢
  unfold buildEntries
  simp only [MarshalIndentMap]
  rw [h1, h2, h3]
  unfold specFilteredCards at hs ⊢
  rw [hs]
  simp [bytesToString]

/-! ## Lemmas on init, main and the program -/

theorem init_tree (env : Env) (w : World) (g : Globals) :
    (init env w g).2.tree = g.tree ∧ (init env w g).2.treeEntry = g.treeEntry := by
  unfold init
  simp only
  split
  · simp
  split
  · simp
  split
  · simp
  split
  · simp
  split
  · simp
  split <;> simp

theorem init_mutations (env : Env) (w : World) (g : Globals) :
    (init env w g).1.mutations = [] := by
  unfold init Run.mutations
  simp only
  split
  · simp [Event.mutation]
  split
  · simp [Event.mutation]
  split
  · simp [Event.mutation]
  split
  · simp [Event.mutation]
  split
  · simp [Event.mutation]
  split <;> simp [Event.mutation]

/-- The commit `init` leaves in `latestCommit` is the one `GetCommit` returned
for the SHA that `GetRef` returned for the branch. -/
theorem init_latestCommit (env : Env) (w : World) (tip : Commit)
    (h : (init env w Globals.zero).2.latestCommit = some tip) :
    ∃ oldRef object refSHA,
      w.GetRef (init env w Globals.zero).2.config.GithubUser
          (init env w Globals.zero).2.config.GithubRepo
          ("heads/" ++ (init env w Globals.zero).2.config.GithubBranch) = .ok oldRef ∧
        oldRef.Object = some object ∧ object.SHA = some refSHA ∧
        w.GetCommit (init env w Globals.zero).2.config.GithubUser
          (init env w Globals.zero).2.config.GithubRepo refSHA = .ok tip := by
  unfold init at h ⊢
  simp only at h ⊢
  repeat' split at h
  all_goals simp [Globals.zero] at h
  all_goals simp_all

theorem program_mutation_mem (env : Env) (w : World) (e : Event)
    (he : (Event.mutation e).isSome = true) (h : e ∈ (program env w).trace) :
    (init env w Globals.zero).1.exit = .returned ∧
      e ∈ (main env w (init env w Globals.zero).2).trace := by
  have hi := init_mutations env w Globals.zero
  have hno : e ∉ (init env w Globals.zero).1.trace := by
    intro hmem
    obtain ⟨m, hm⟩ := Option.isSome_iff_exists.mp he
    have hmm : m ∈ (init env w Globals.zero).1.mutations :=
      List.mem_filterMap.mpr ⟨e, hmem, hm⟩
    rw [hi] at hmm
    simp at hmm
  unfold program at h
  simp only at h
  split at h
  · rename_i hx
    simp only [List.mem_append] at h
    exact ⟨hx, h.resolve_left hno⟩
  · exact absurd h hno

theorem mem_program_of_mem_main (env : Env) (w : World) (e : Event)
    (hret : (init env w Globals.zero).1.exit = .returned)
    (h : e ∈ (main env w (init env w Globals.zero).2).trace) :
    e ∈ (program env w).trace := by
  unfold program
  simp only
  split
  · simp only [List.mem_append]
    exact Or.inr h
  · rename_i hx
    exact absurd hret hx

theorem program_mutations (env : Env) (w : World) :
    (program env w).mutations = [] ∨
      ((init env w Globals.zero).1.exit = .returned ∧
        (program env w).mutations = (main env w (init env w Globals.zero).2).mutations) := by
  have hi := init_mutations env w Globals.zero
  unfold Run.mutations at hi ⊢
  unfold program
  simp only
  split
  · rename_i hx
    right
    refine ⟨hx, ?_⟩
    simp [List.filterMap_append, hi]
  · left
    exact hi

theorem main_createTree_mem (env : Env) (w : World) (g : Globals) (o r base : String)
    (entries : List TreeEntry)
    (h : Event.call (.CreateTree o r base entries) ∈ (main env w g).trace) :
    ∃ board tip tipTree, fetchBoard w g.config = some (.ok board) ∧
      buildEntries env g board = .ok entries ∧ g.latestCommit = some tip ∧
      tip.Tree = some tipTree ∧ tipTree.SHA = some base ∧
      o = g.config.GithubUser ∧ r = g.config.GithubRepo := by
  unfold main at h
  simp only at h
  repeat' split at h
  all_goals simp at h
  all_goals simp_all

theorem main_createCommit (env : Env) (w : World) (g : Globals) (o r base : String)
    (entries : List TreeEntry) (newTree : Tree)
    (h : Event.call (.CreateTree o r base entries) ∈ (main env w g).trace)
    (hok : w.CreateTree o r base entries = .ok newTree) :
    ∃ tip tipTree, g.latestCommit = some tip ∧ tip.Tree = some tipTree ∧
      tipTree.SHA = some base ∧
      Event.call (.CreateCommit o r
          (.mk none (some "updating cards") (some newTree) [tip] none)) ∈ (main env w g).trace ∧
      ∀ o' r' c', Event.call (.CreateCommit o' r' c') ∈ (main env w g).trace →
        c' = .mk none (some "updating cards") (some newTree) [tip] none := by
  unfold main at h ⊢
  simp only at h ⊢
  repeat' split at h
  all_goals simp at h
  all_goals simp_all

theorem main_updateRef_mem (env : Env) (w : World) (g : Globals) (o r : String)
    (ref : Reference) (force : Bool)
    (h : Event.call (.UpdateRef o r ref force) ∈ (main env w g).trace) :
    ref.Ref = some ("refs/heads/" ++ g.config.GithubBranch) ∧ force = false ∧
      ∃ tip commit newCommit, g.latestCommit = some tip ∧ commit.Parents = [tip] ∧
        Event.call (.CreateCommit o r commit) ∈ (main env w g).trace ∧
        w.CreateCommit o r commit = .ok newCommit ∧
        ref.Object.map GitObject.SHA = some newCommit.SHA := by
  unfold main at h ⊢
  simp only at h ⊢
  repeat' split at h
  all_goals simp at h
  all_goals
    obtain ⟨rfl, rfl, rfl, rfl⟩ := h
    refine ⟨rfl, rfl, _, Commit.mk none (some "updating cards") (some _) [_] none, _,
      by assumption, rfl, ?_, by assumption, rfl⟩
    simp_all

/-! ## The claims -/

/-- C1. The mutating remote calls of `main` are a prefix of create tree, create
commit, update ref; create commit is called only after create tree succeeded,
update ref only after create commit succeeded, and none of them is called when
the board was not fetched. The same prefix property holds for the whole program. -/
theorem C1_mutations_ordered (env : Env) (w : World) :
    (∀ g : Globals,
      (main env w g).mutations <+: [.createTree, .createCommit, .updateRef] ∧
      (Mutation.createCommit ∈ (main env w g).mutations →
        ∃ o r base entries newTree,
          Event.call (.CreateTree o r base entries) ∈ (main env w g).trace ∧
          w.CreateTree o r base entries = .ok newTree) ∧
      (Mutation.updateRef ∈ (main env w g).mutations →
        ∃ o r commit newCommit,
          Event.call (.CreateCommit o r commit) ∈ (main env w g).trace ∧
          w.CreateCommit o r commit = .ok newCommit) ∧
      ((∀ board, fetchBoard w g.config ≠ some (.ok board)) →
        (main env w g).mutations = [])) ∧
    (program env w).mutations <+: [.createTree, .createCommit, .updateRef] := by
  have hmain : ∀ g : Globals,
      (main env w g).mutations <+: [.createTree, .createCommit, .updateRef] := by
    intro g
    unfold main Run.mutations
    simp only
    repeat' split
    all_goals simp [Event.mutation]
  refine ⟨fun g => ⟨hmain g, ?_, ?_, ?_⟩, ?_⟩
  · unfold main Run.mutations
    simp only
    repeat' split
    all_goals simp [Event.mutation]
    all_goals exact ⟨_, _, _, _, ⟨rfl, rfl, rfl, rfl⟩, _, by assumption⟩
  · unfold main Run.mutations
    simp only
    repeat' split
    all_goals simp [Event.mutation]
    all_goals exact ⟨_, _, _, ⟨rfl, rfl, rfl⟩, _, by assumption⟩
  · intro hb
    unfold main Run.mutations
    simp only
    repeat' split
    all_goals simp_all [Event.mutation]
  · rcases program_mutations env w with h | ⟨_, h⟩
    · rw [h]; exact List.nil_prefix
    · rw [h]; exact hmain _

/-- Witness of C1 on the sample remote: all three calls are made, in order, and
none when the board fetch fails. -/
theorem C1_mutations_ordered_witness :
    (main sampleEnv sampleWorld sampleGlobals).mutations =
        [.createTree, .createCommit, .updateRef] ∧
      (∃ o r base entries newTree,
        Event.call (.CreateTree o r base entries) ∈
            (main sampleEnv sampleWorld sampleGlobals).trace ∧
          sampleWorld.CreateTree o r base entries = .ok newTree) ∧
      (∃ o r commit newCommit,
        Event.call (.CreateCommit o r commit) ∈
            (main sampleEnv sampleWorld sampleGlobals).trace ∧
          sampleWorld.CreateCommit o r commit = .ok newCommit) ∧
      (main sampleEnv boardFailsWorld sampleGlobals).mutations = [] :=
  ⟨by decide,
    ((C1_mutations_ordered sampleEnv sampleWorld).1 sampleGlobals).2.1 (by decide),
    ((C1_mutations_ordered sampleEnv sampleWorld).1 sampleGlobals).2.2.1 (by decide),
    ((C1_mutations_ordered sampleEnv boardFailsWorld).1 sampleGlobals).2.2.2
      (by
        intro board h
        have hf : fetchBoard boardFailsWorld sampleGlobals.config =
            some (.error "401 unauthorized") := rfl
        rw [hf] at h
        cases h)⟩

/-- C2. When tree creation succeeds, the program submits to create commit the
commit with message "updating cards", the returned tree as its tree and exactly
one parent, the tip commit that `init` read (the commit `GetCommit` returned for
the SHA `GetRef` returned for the branch); it submits no other commit, and the
base tree of the create-tree call is the SHA of that tip commit's tree. -/
theorem C2_commit_shape (env : Env) (w : World) (o r base : String)
    (entries : List TreeEntry) (newTree : Tree)
    (hcall : Event.call (.CreateTree o r base entries) ∈ (program env w).trace)
    (hok : w.CreateTree o r base entries = .ok newTree) :
    ∃ tip tipTree oldRef object refSHA,
      w.GetRef (init env w Globals.zero).2.config.GithubUser
          (init env w Globals.zero).2.config.GithubRepo
          ("heads/" ++ (init env w Globals.zero).2.config.GithubBranch) = .ok oldRef ∧
      oldRef.Object = some object ∧ object.SHA = some refSHA ∧
      w.GetCommit (init env w Globals.zero).2.config.GithubUser
          (init env w Globals.zero).2.config.GithubRepo refSHA = .ok tip ∧
      tip.Tree = some tipTree ∧ tipTree.SHA = some base ∧
      Event.call (.CreateCommit o r
          (.mk none (some "updating cards") (some newTree) [tip] none)) ∈
        (program env w).trace ∧
      ∀ o' r' c', Event.call (.CreateCommit o' r' c') ∈ (program env w).trace →
        (c'.Message = some "updating cards" ∧ c'.Tree = some newTree ∧ c'.Parents = [tip]) := by
  obtain ⟨hret, hmain⟩ := program_mutation_mem env w _ (by rfl) hcall
  obtain ⟨tip, tipTree, htip, htree, hsha, hcommit, honly⟩ :=
    main_createCommit env w _ o r base entries newTree hmain hok
  obtain ⟨oldRef, object, refSHA, h1, h2, h3, h4⟩ := init_latestCommit env w tip htip
  refine ⟨tip, tipTree, oldRef, object, refSHA, h1, h2, h3, h4, htree, hsha,
    mem_program_of_mem_main env w _ hret hcommit, ?_⟩
  intro o' r' c' hc
  have := honly o' r' c' (program_mutation_mem env w _ (by rfl) hc).2
  subst this
  exact ⟨rfl, rfl, rfl⟩

/-- Witness of C2 on the sample remote. -/
theorem C2_commit_shape_witness :
    ∃ tip tipTree oldRef object refSHA,
      sampleWorld.GetRef (init sampleEnv sampleWorld Globals.zero).2.config.GithubUser
          (init sampleEnv sampleWorld Globals.zero).2.config.GithubRepo
          ("heads/" ++ (init sampleEnv sampleWorld Globals.zero).2.config.GithubBranch) =
        .ok oldRef ∧
      oldRef.Object = some object ∧ object.SHA = some refSHA ∧
      sampleWorld.GetCommit (init sampleEnv sampleWorld Globals.zero).2.config.GithubUser
          (init sampleEnv sampleWorld Globals.zero).2.config.GithubRepo refSHA = .ok tip ∧
      tip.Tree = some tipTree ∧ tipTree.SHA = some "tt" ∧
      Event.call (.CreateCommit "owner" "site"
          (.mk none (some "updating cards") (some ⟨some "nt", []⟩) [tip] none)) ∈
        (program sampleEnv sampleWorld).trace ∧
      ∀ o' r' c', Event.call (.CreateCommit o' r' c') ∈ (program sampleEnv sampleWorld).trace →
        (c'.Message = some "updating cards" ∧ c'.Tree = some ⟨some "nt", []⟩ ∧
          c'.Parents = [tip]) :=
  C2_commit_shape sampleEnv sampleWorld "owner" "site" "tt"
    [⟨none, some "_data/lists.json", some "100644", some "blob",
        some "\x7b\n\t\"id2\": \"Tasks\"\n\x7d"⟩,
      ⟨none, some "_items/fix-bug/index.html", some "100644", some "blob",
        some "---\nname: \"Fix bug\"\nlayout: card\n---"⟩,
      ⟨none, some "_data/all.json", some "100644", some "blob",
        some "[\n\t\x7b\"id\": \"c1\", \"name\": \"Fix bug\", \"idList\": \"id2\"\x7d\n]"⟩]
    ⟨some "nt", []⟩
    (List.Mem.tail _ (List.Mem.tail _ (List.Mem.tail _ (List.Mem.head _))))
    rfl

/-! ## The non-forced update -/

theorem reaches_sound (parents : String → List String) (depth : Nat) (c t : String)
    (h : reaches parents depth c t = true) : Descends parents c t := by
  induction depth generalizing c with
  | zero =>
    have hct : c = t := by simpa [reaches] using h
    subst hct
    exact Descends.refl c
  | succ n ih =>
    simp only [reaches, Bool.or_eq_true, beq_iff_eq, List.any_eq_true] at h
    rcases h with hct | ⟨p, hp, hr⟩
    · subst hct
      exact Descends.refl c
    · exact Descends.step hp (ih p hr)

theorem fastForwardOnly_rejects (depth : Nat) : RejectsNonDescending (fastForwardOnly depth) := by
  intro repo sha hnot
  have hr : reaches repo.parents depth sha repo.tip = false := by
    cases hb : reaches repo.parents depth sha repo.tip
    · rfl
    · exact absurd (reaches_sound _ _ _ _ hb) hnot
  simp [fastForwardOnly, hr]

theorem descends_of_single_parent (parents : String → List String) (c t x : String)
    (hp : parents c = [t]) (h : Descends parents c x) : x = c ∨ Descends parents t x := by
  cases h with
  | refl => exact Or.inl rfl
  | step hmem hrest =>
    rw [hp] at hmem
    have := List.mem_singleton.mp hmem
    subst this
    exact Or.inr hrest

theorem descends_of_no_parent (parents : String → List String) (c x : String)
    (hp : parents c = []) (h : Descends parents c x) : x = c := by
  cases h with
  | refl => rfl
  | step hmem _ =>
    rw [hp] at hmem
    cases hmem

theorem not_descends_t_x : ¬ Descends sampleParents "t" "x" := by
  intro h
  rcases descends_of_single_parent sampleParents "t" "a" "x" rfl h with h1 | h2
  · exact absurd h1 (by decide)
  · exact absurd (descends_of_no_parent sampleParents "a" "x" rfl h2) (by decide)

/-- C3, as amended. The update-ref request names `refs/heads/<GithubBranch>`,
targets the SHA of the commit that create commit returned, and passes
force = false. Against a host that rejects a non-forced update whose new commit
does not descend from the current tip: when the host recorded the tip commit as
the new commit's only parent, and the branch now points at a commit that is
neither the new commit nor the tip that was read nor one of its ancestors, the
update is rejected and the branch is left where it is. -/
theorem C3_update_ref_not_forced (env : Env) (w : World) (o r : String) (ref : Reference)
    (force : Bool)
    (h : Event.call (.UpdateRef o r ref force) ∈ (program env w).trace) :
    ref.Ref = some ("refs/heads/" ++ (init env w Globals.zero).2.config.GithubBranch) ∧
      force = false ∧
      ∃ tip commit newCommit,
        (init env w Globals.zero).2.latestCommit = some tip ∧ commit.Parents = [tip] ∧
        Event.call (.CreateCommit o r commit) ∈ (program env w).trace ∧
        w.CreateCommit o r commit = .ok newCommit ∧
        ref.Object.map GitObject.SHA = some newCommit.SHA ∧
        ∀ upd : RefUpdate, RejectsNonDescending upd →
          ∀ (repo : Repo) (c t : String), newCommit.SHA = some c → tip.SHA = some t →
            repo.parents c = [t] → repo.tip ≠ c → ¬ Descends repo.parents t repo.tip →
            upd repo c force = (false, repo) := by
  obtain ⟨hret, hmain⟩ := program_mutation_mem env w _ (by rfl) h
  obtain ⟨hname, hforce, tip, commit, newCommit, htip, hpar, hcc, hok, hobj⟩ :=
    main_updateRef_mem env w _ o r ref force hmain
  refine ⟨hname, hforce, tip, commit, newCommit, htip, hpar,
    mem_program_of_mem_main env w _ hret hcc, hok, hobj, ?_⟩
  intro upd hupd repo c t _ _ hp hne hnd
  subst hforce
  apply hupd
  intro hd
  rcases descends_of_single_parent repo.parents c t repo.tip hp hd with h1 | h2
  · exact hne h1
  · exact hnd h2

/-- Witness of C3 on the sample remote: the branch was advanced to `x` after the
tip `t` was read, and git's fast-forward rule rejects the update. -/
theorem C3_update_ref_not_forced_witness :
    sampleRef.Ref = some "refs/heads/master" ∧
      fastForwardOnly 8 advancedRepo "c" false = (false, advancedRepo) := by
  obtain ⟨hname, _, tip, commit, newCommit, htip, _, _, hok, _, hrej⟩ :=
    C3_update_ref_not_forced sampleEnv sampleWorld "owner" "site" sampleRef false
      (List.Mem.tail _ (List.Mem.tail _ (List.Mem.tail _ (List.Mem.tail _
        (List.Mem.tail _ (List.Mem.head _))))))
  have h1 : newCommit = sampleNewCommit := by
    have : Except.ok sampleNewCommit = Except.ok newCommit := hok
    injection this with e
    exact e.symm
  have h2 : tip = sampleTip := by
    have : some sampleTip = some tip := htip
    injection this with e
    exact e.symm
  subst h1 h2
  exact ⟨rfl, hrej (fastForwardOnly 8) (fastForwardOnly_rejects 8) advancedRepo "c" "t"
    rfl rfl rfl (by decide) not_descends_t_x⟩

/-- Counterexample to C3 as stated. The program reads the tip `t` and sends the
non-forced update to the new commit `c`, whose only parent is `t`. Meanwhile the
branch was moved back to `a`, the parent of `t`: the tip changed, yet `c`
descends from `a`, so a host with git's fast-forward rule (which rejects every
non-descending update) accepts, and the branch no longer points at the changed tip. -/
theorem C3_counterexample :
    Event.call (.UpdateRef "owner" "site" sampleRef false) ∈
        (program sampleEnv sampleWorld).trace ∧
      (init sampleEnv sampleWorld Globals.zero).2.latestCommit = some sampleTip ∧
      sampleTip.SHA = some "t" ∧
      RejectsNonDescending (fastForwardOnly 8) ∧
      rewoundRepo.parents "c" = ["t"] ∧
      rewoundRepo.tip ≠ "t" ∧
      (fastForwardOnly 8 rewoundRepo "c" false).1 = true ∧
      (fastForwardOnly 8 rewoundRepo "c" false).2.tip = "c" ∧
      (fastForwardOnly 8 rewoundRepo "c" false).2.tip ≠ rewoundRepo.tip :=
  ⟨List.Mem.tail _ (List.Mem.tail _ (List.Mem.tail _ (List.Mem.tail _
      (List.Mem.tail _ (List.Mem.head _))))),
    rfl, rfl, fastForwardOnly_rejects 8, rfl, by decide, by decide, by decide, by decide⟩

/-! ## The content transformer -/

theorem includedCard_listMap (board : Board) (card : Card) :
    includedCard (listMap board) card = onPublicList board card := by
  have h := foldl_listStep_isSome board.Lists GoMap.make card.IdList
  have hempty : (GoMap.get GoMap.make card.IdList).isSome = false := rfl
  rw [hempty] at h
  unfold includedCard listMap onPublicList
  rw [Bool.eq_iff_iff, h]
  simp [List.any_eq_true]

/-- C4. On a board with pairwise distinct list ids, the inclusion map holds the
key `L.Id` exactly for the lists `L` whose name does not start with "PRIVATE",
bound to `L.Name`, and every key of the map is the id of a list of the board. -/
theorem C4_inclusion_map (board : Board) (hnd : (board.Lists.map TrelloList.Id).Nodup) :
    (∀ L ∈ board.Lists,
      ((GoMap.get (listMap board) L.Id).isSome = true ↔ HasPrefix L.Name "PRIVATE" = false) ∧
      (HasPrefix L.Name "PRIVATE" = false → GoMap.get (listMap board) L.Id = some L.Name)) ∧
    (∀ k v, GoMap.get (listMap board) k = some v →
      ∃ L ∈ board.Lists, L.Id = k ∧ L.Name = v ∧ HasPrefix L.Name "PRIVATE" = false) := by
  constructor
  · intro L hL
    have h := foldl_listStep_get_of_mem board.Lists GoMap.make L hnd hL
    have hempty : GoMap.get GoMap.make L.Id = none := rfl
    rw [hempty] at h
    unfold listMap
    rw [h]
    unfold isPrivate
    cases HasPrefix L.Name "PRIVATE" <;> simp
  · intro k v hk
    rcases foldl_listStep_get_some board.Lists GoMap.make k v hk with h | h
    · exact absurd h (by simp [GoMap.make, GoMap.get])
    · exact h

/-- Witness of C4: the lists `id1: PRIVATE-notes`, `id2: Tasks` give the map
`id2: Tasks`; the marker is case-sensitive, a list `private-notes` is kept. -/
theorem C4_inclusion_map_witness :
    (sampleBoard.Lists.map TrelloList.Id).Nodup ∧
      listMap sampleBoard = [("id2", "Tasks")] ∧
      listMap ⟨[⟨"id3", "private-notes"⟩], []⟩ = [("id3", "private-notes")] ∧
      ((∀ L ∈ sampleBoard.Lists,
        ((GoMap.get (listMap sampleBoard) L.Id).isSome = true ↔
          HasPrefix L.Name "PRIVATE" = false) ∧
        (HasPrefix L.Name "PRIVATE" = false →
          GoMap.get (listMap sampleBoard) L.Id = some L.Name)) ∧
      (∀ k v, GoMap.get (listMap sampleBoard) k = some v →
        ∃ L ∈ sampleBoard.Lists, L.Id = k ∧ L.Name = v ∧ HasPrefix L.Name "PRIVATE" = false)) :=
  ⟨by decide, by decide, by decide, C4_inclusion_map sampleBoard (by decide)⟩

/-- C5. The entries built by `main` are the lists entry, one entry per card of
the filtered sequence, and the entry `_data/all.json` whose content is the
encoding of the filtered sequence; the filtered sequence is `board.Cards`
filtered, in order and with multiplicity, by "its `IdList` is a key of the
inclusion map", and a card is in it exactly when it is a card of the board on a
list whose name does not start with "PRIVATE". -/
theorem C5_filtered_cards (env : Env) (g : Globals) (board : Board) :
    ∃ listsEntry allEntry,
      buildEntries env g board = .ok (g.tree.Entries ++ [listsEntry] ++
        (board.Cards.filter (fun c => (GoMap.get (listMap board) c.IdList).isSome)).map
          (specCardEntry env g.config.ItemPath g.treeEntry.SHA) ++ [allEntry]) ∧
      listsEntry.Path = some "_data/lists.json" ∧
      allEntry.Path = some "_data/all.json" ∧
      allEntry.Content = some (bytesToString (MarshalIndentCards env (sliceOf
        (board.Cards.filter (fun c => (GoMap.get (listMap board) c.IdList).isSome))))) ∧
      (sliceOf (board.Cards.filter
          (fun c => (GoMap.get (listMap board) c.IdList).isSome))).toList =
        board.Cards.filter (fun c => (GoMap.get (listMap board) c.IdList).isSome) ∧
      ∀ c, c ∈ board.Cards.filter (fun c => (GoMap.get (listMap board) c.IdList).isSome) ↔
        c ∈ board.Cards ∧
          ∃ L ∈ board.Lists, L.Id = c.IdList ∧ HasPrefix L.Name "PRIVATE" = false := by
  refine ⟨_, _, buildEntries_eq env g board, rfl, rfl, rfl, ?_, ?_⟩
  · show (sliceOf (specFilteredCards board)).toList = specFilteredCards board
    cases specFilteredCards board <;> rfl
  · intro c
    have h := includedCard_listMap board c
    unfold includedCard onPublicList at h
    simp only [List.mem_filter, h, List.any_eq_true, Bool.and_eq_true, beq_iff_eq,
      Bool.not_eq_true', isPrivate]

/-- C6, evaluated on the code. On an empty board the entries handed to create
tree are exactly two, `_data/lists.json` with an empty JSON object and
`_data/all.json`, and no error is reported; but the content of `_data/all.json`
is `null`, the encoding of the nil slice `filteredCards`, not an empty JSON array. -/
theorem C6_empty_board_all_json_null :
    (∀ (env : Env) (w : World),
      buildEntries env (init env w Globals.zero).2 ⟨[], []⟩ = .ok
        [⟨none, some "_data/lists.json", some "100644", some "blob", some "\x7b\x7d"⟩,
         ⟨none, some "_data/all.json", some "100644", some "blob", some "null"⟩]) ∧
    (program sampleEnv emptyBoardWorld).trace =
      [.call (.GetRef "owner" "site" "heads/master"),
       .call (.GetCommit "owner" "site" "t"),
       .call (.GetBoard "board" (boardParams sampleConfig)),
       .call (.CreateTree "owner" "site" "tt"
        [⟨none, some "_data/lists.json", some "100644", some "blob", some "\x7b\x7d"⟩,
         ⟨none, some "_data/all.json", some "100644", some "blob", some "null"⟩]),
       .call (.CreateCommit "owner" "site"
        (.mk none (some "updating cards") (some ⟨some "nt", []⟩) [sampleTip] none)),
       .call (.UpdateRef "owner" "site" sampleRef false)] := by
  refine ⟨?_, rfl⟩
  intro env w
  obtain ⟨h1, h2⟩ := init_tree env w Globals.zero
  rw [buildEntries_eq, h1, h2]
  rfl

/-- C7. The entries the program hands to create tree are, in this order: the
entry `_data/lists.json`; for each included card in board order the entry at
`_<ItemPath>/<slug of the name>/index.html` with the front-matter stub of the
quoted name; the entry `_data/all.json`. Every entry has mode 100644 and type
blob, and there are two more entries than included cards. -/
theorem C7_delta_shape (env : Env) (w : World) (o r base : String) (entries : List TreeEntry)
    (h : Event.call (.CreateTree o r base entries) ∈ (program env w).trace) :
    ∃ board, fetchBoard w (init env w Globals.zero).2.config = some (.ok board) ∧
      entries =
        (⟨none, some "_data/lists.json", some "100644", some "blob",
            some (bytesToString (MarshalIndentMap env (listMap board)))⟩ : TreeEntry) ::
          ((board.Cards.filter (fun c => (GoMap.get (listMap board) c.IdList).isSome)).map
            (fun card =>
              (⟨none,
                some ("_" ++ (init env w Globals.zero).2.config.ItemPath ++ "/" ++
                  env.Slugify card.Name ++ "/index.html"),
                some "100644", some "blob",
                some ("---\nname: " ++ env.Quote card.Name ++ "\nlayout: card\n---")⟩ :
                TreeEntry)) ++
            [⟨none, some "_data/all.json", some "100644", some "blob",
              some (bytesToString (MarshalIndentCards env (sliceOf
                (board.Cards.filter
                  (fun c => (GoMap.get (listMap board) c.IdList).isSome)))))⟩]) ∧
      entries.length =
        2 + (board.Cards.filter (fun c => (GoMap.get (listMap board) c.IdList).isSome)).length ∧
      ∀ e ∈ entries, e.Mode = some "100644" ∧ e.Typ = some "blob" := by
  obtain ⟨_, hmain⟩ := program_mutation_mem env w _ (by rfl) h
  obtain ⟨board, tip, tipTree, hfetch, hbuild, _⟩ :=
    main_createTree_mem env w _ o r base entries hmain
  obtain ⟨h1, h2⟩ := init_tree env w Globals.zero
  rw [buildEntries_eq, h1, h2] at hbuild
  have hentries := (Except.ok.inj hbuild).symm
  have hf : specFilteredCards board =
      board.Cards.filter (fun c => (GoMap.get (listMap board) c.IdList).isSome) := rfl
  rw [hf] at hentries
  refine ⟨board, hfetch, ?_, ?_, ?_⟩
  · rw [hentries]
    rfl
  · rw [hentries]
    simp only [Globals.zero, List.nil_append, List.length_append, List.length_map,
      List.length_singleton]
    omega
  · intro e he
    rw [hentries] at he
    simp only [Globals.zero, List.nil_append, List.mem_append, List.mem_map,
      List.mem_singleton] at he
    rcases he with (rfl | ⟨c, _, rfl⟩) | rfl <;> exact ⟨rfl, rfl⟩

/-- Witness of C7: with ItemPath `items`, the included card named `Fix bug` gives
the entry at `_items/fix-bug/index.html`. -/
theorem C7_delta_shape_witness :
    ∃ board, fetchBoard sampleWorld (init sampleEnv sampleWorld Globals.zero).2.config =
        some (.ok board) ∧
      ([⟨none, some "_data/lists.json", some "100644", some "blob",
          some "\x7b\n\t\"id2\": \"Tasks\"\n\x7d"⟩,
        ⟨none, some "_items/fix-bug/index.html", some "100644", some "blob",
          some "---\nname: \"Fix bug\"\nlayout: card\n---"⟩,
        ⟨none, some "_data/all.json", some "100644", some "blob",
          some "[\n\t\x7b\"id\": \"c1\", \"name\": \"Fix bug\", \"idList\": \"id2\"\x7d\n]"⟩] :
          List TreeEntry) =
        (⟨none, some "_data/lists.json", some "100644", some "blob",
            some (bytesToString (MarshalIndentMap sampleEnv (listMap board)))⟩ : TreeEntry) ::
          ((board.Cards.filter (fun c => (GoMap.get (listMap board) c.IdList).isSome)).map
            (fun card =>
              (⟨none,
                some ("_" ++ (init sampleEnv sampleWorld Globals.zero).2.config.ItemPath ++ "/" ++
                  sampleEnv.Slugify card.Name ++ "/index.html"),
                some "100644", some "blob",
                some ("---\nname: " ++ sampleEnv.Quote card.Name ++ "\nlayout: card\n---")⟩ :
                TreeEntry)) ++
            [⟨none, some "_data/all.json", some "100644", some "blob",
              some (bytesToString (MarshalIndentCards sampleEnv (sliceOf
                (board.Cards.filter
                  (fun c => (GoMap.get (listMap board) c.IdList).isSome)))))⟩]) ∧
      ([⟨none, some "_data/lists.json", some "100644", some "blob",
          some "\x7b\n\t\"id2\": \"Tasks\"\n\x7d"⟩,
        ⟨none, some "_items/fix-bug/index.html", some "100644", some "blob",
          some "---\nname: \"Fix bug\"\nlayout: card\n---"⟩,
        ⟨none, some "_data/all.json", some "100644", some "blob",
          some "[\n\t\x7b\"id\": \"c1\", \"name\": \"Fix bug\", \"idList\": \"id2\"\x7d\n]"⟩] :
          List TreeEntry).length =
        2 + (board.Cards.filter (fun c => (GoMap.get (listMap board) c.IdList).isSome)).length ∧
      ∀ e ∈ ([⟨none, some "_data/lists.json", some "100644", some "blob",
          some "\x7b\n\t\"id2\": \"Tasks\"\n\x7d"⟩,
        ⟨none, some "_items/fix-bug/index.html", some "100644", some "blob",
          some "---\nname: \"Fix bug\"\nlayout: card\n---"⟩,
        ⟨none, some "_data/all.json", some "100644", some "blob",
          some "[\n\t\x7b\"id\": \"c1\", \"name\": \"Fix bug\", \"idList\": \"id2\"\x7d\n]"⟩] :
          List TreeEntry), e.Mode = some "100644" ∧ e.Typ = some "blob" :=
  C7_delta_shape sampleEnv sampleWorld "owner" "site" "tt" _
    (List.Mem.tail _ (List.Mem.tail _ (List.Mem.tail _ (List.Mem.head _))))

/-- C8, evaluated on the code. When `GetRef` succeeds and `GetCommit` fails,
`init` prints the error and goes on, `latestCommit` stays nil, and `main`, after
fetching the board, ends in a nil dereference at `*latestCommit.Tree.SHA`
before any mutating call. -/
theorem C8_nil_tip_dereferenced :
    (init sampleEnv tipFailsWorld Globals.zero).1.exit = .returned ∧
      (init sampleEnv tipFailsWorld Globals.zero).2.latestCommit.isNone = true ∧
      fetchBoard tipFailsWorld (init sampleEnv tipFailsWorld Globals.zero).2.config =
        some (.ok sampleBoard) ∧
      (program sampleEnv tipFailsWorld).exit = .nilDeref ∧
      (program sampleEnv tipFailsWorld).mutations = [] :=
  ⟨by decide, by decide, rfl, by decide, by decide⟩

/-- C9, evaluated on the code. After the failure of `GetCommit` is printed the
pipeline goes on: the board is fetched. And when encoding the filtered cards
fails, nothing is printed and all three mutating calls are made, create tree
with an empty `_data/all.json`. -/
theorem C9_errors_not_stopping :
    (program sampleEnv tipFailsWorld).trace =
        [.call (.GetRef "owner" "site" "heads/master"),
         .call (.GetCommit "owner" "site" "t"),
         .printf "error getting repoCommit: 502 Bad Gateway",
         .call (.GetBoard "board" (boardParams sampleConfig))] ∧
      MarshalIndentCards cardFailsEnv (sliceOf (specFilteredCards sampleBoard)) =
        .error "json: unsupported value" ∧
      (program cardFailsEnv sampleWorld).trace =
        [.call (.GetRef "owner" "site" "heads/master"),
         .call (.GetCommit "owner" "site" "t"),
         .call (.GetBoard "board" (boardParams sampleConfig)),
         .call (.CreateTree "owner" "site" "tt"
          [⟨none, some "_data/lists.json", some "100644", some "blob",
              some "\x7b\n\t\"id2\": \"Tasks\"\n\x7d"⟩,
            ⟨none, some "_items/fix-bug/index.html", some "100644", some "blob",
              some "---\nname: \"Fix bug\"\nlayout: card\n---"⟩,
            ⟨none, some "_data/all.json", some "100644", some "blob", some ""⟩]),
         .call (.CreateCommit "owner" "site"
          (.mk none (some "updating cards") (some ⟨some "nt", []⟩) [sampleTip] none)),
         .call (.UpdateRef "owner" "site" sampleRef false)] :=
  ⟨rfl, rfl, rfl⟩

/-- C10. Two boards with pairwise distinct list ids that have the same lists
whose name does not start with "PRIVATE", in the same order, and the same cards
on such lists, in the same order, give the same entries: private lists, cards on
private lists and cards on no list do not influence the delta. -/
theorem C10_private_data_no_influence (env : Env) (g : Globals) (b1 b2 : Board)
    (_hnd1 : (b1.Lists.map TrelloList.Id).Nodup) (_hnd2 : (b2.Lists.map TrelloList.Id).Nodup)
    (hlists : b1.Lists.filter (fun l => !HasPrefix l.Name "PRIVATE") =
      b2.Lists.filter (fun l => !HasPrefix l.Name "PRIVATE"))
    (hcards : b1.Cards.filter (onPublicList b1) = b2.Cards.filter (onPublicList b2)) :
    buildEntries env g b1 = buildEntries env g b2 := by
  have hmap : listMap b1 = listMap b2 := by
    unfold listMap
    rw [foldl_listStep_filter b1.Lists, foldl_listStep_filter b2.Lists]
    unfold isPrivate
    rw [hlists]
  have hfilter : specFilteredCards b1 = specFilteredCards b2 := by
    unfold specFilteredCards
    have e1 : includedCard (listMap b1) = onPublicList b1 :=
      funext (includedCard_listMap b1)
    have e2 : includedCard (listMap b2) = onPublicList b2 :=
      funext (includedCard_listMap b2)
    rw [e1, e2, hcards]
  rw [buildEntries_eq, buildEntries_eq, hmap, hfilter]

/-- Witness of C10: the sample board and a board with other private data give
the same entries. -/
theorem C10_private_data_no_influence_witness :
    sampleBoard ≠ otherPrivateBoard ∧
      buildEntries sampleEnv sampleGlobals sampleBoard =
        buildEntries sampleEnv sampleGlobals otherPrivateBoard :=
  ⟨by decide,
    C10_private_data_no_influence sampleEnv sampleGlobals sampleBoard otherPrivateBoard
      (by decide) (by decide) (by decide) (by decide)⟩

end TrGh

